import Mathlib

/-!
Verification of the core of the `posy` dependency resolver (sources:
`src/platform_tags/expand.rs`, `src/resolve.rs`, `src/seek_slice.rs`).

The Rust code is shallowly embedded: each Rust function becomes an executable
Lean definition over explicit data.  Strings are Lean `String`s; the regular
expressions of `expand.rs` are embedded as hand-written parsers over the
character data that recognize exactly the same shapes; `u64` arithmetic is
modelled as `Nat` with explicit `2 ^ 64` bounds; fallible Rust functions
return `Except`, and `assert!`/`unwrap` panics are modelled by a dedicated
outcome constructor.
-/

namespace Posy

/-! ## Character-level helpers used by the embedded regular expressions -/

/-- Characters allowed by the regex class `[a-zA-Z0-9_]`. -/
def isTagChar (c : Char) : Bool := c.isAlphanum || c = '_'

/-- One step of `splitOnChar`: either start a new piece (when `x` is the
separator) or prepend `x` to the current first piece. -/
def splitOnCharAux (x c : Char) : List (List Char) → List (List Char)
  | [] => [[]]
  | p :: ps => if x = c then [] :: p :: ps else (x :: p) :: ps

/-- Split a character list at every occurrence of `c` (like `str::split`);
the separators are dropped and empty pieces are kept, so e.g.
`splitOnChar '_' "a__b"` gives `["a", "", "b"]`. -/
def splitOnChar (c : Char) : List Char → List (List Char)
  | [] => [[]]
  | x :: xs => splitOnCharAux x c (splitOnChar c xs)

/-- Decimal digits to a number, as done by `str::parse::<u32>` on a digit run. -/
def digitsToNat (l : List Char) : Nat :=
  l.foldl (fun n c => n * 10 + (c.toNat - 48)) 0

/-- Nonempty all-digit character run, the regex `[0-9]+`. -/
def isDigits (l : List Char) : Bool := !l.isEmpty && l.all Char.isDigit

/-- Rejoin pieces with a separator character (inverse of `splitOnChar`). -/
def joinWithChar (c : Char) : List (List Char) → List Char
  | [] => []
  | [p] => p
  | p :: ps => p ++ c :: joinWithChar c ps

/-! ## Tag parsers

These embed the three anchored regular expressions of `expand.rs`:

* `LINUX_RE    = ^(many|musl)linux_([0-9]+)_([0-9]+)_([a-zA-Z0-9_]*)$`
* `LEGACY_MANYLINUX_RE = ^manylinux(2014|2010|1)_([a-zA-Z0-9_]*)` (no end anchor)
* `MACOSX_RE  = ^macosx_([0-9]+)_([0-9]+)_([a-zA-Z0-9_]*)$`

The first and third are fully anchored, so a match decomposes the whole
string on underscores: the first piece is the literal word, the next two are
digit runs, and the remaining pieces (rejoined with `_`) form the arch, whose
characters must all be alphanumeric.  The legacy regex has no `$` anchor, so
after the literal prefix the arch capture greedily takes tag characters and
any trailing junk is ignored. -/

/-- Capture groups of `LINUX_RE`. -/
structure LinuxTag where
  variant : String
  major : Nat
  minor : Nat
  arch : String
deriving DecidableEq

/-- Capture groups of `MACOSX_RE`. -/
structure MacTag where
  major : Nat
  minor : Nat
  arch : String
deriving DecidableEq

/-- Match of `LINUX_RE` against a tag. -/
def parseLinux (s : String) : Option LinuxTag :=
  match splitOnChar '_' s.data with
  | v :: ma :: mi :: r :: rs =>
    if (v = "manylinux".data ∨ v = "musllinux".data) ∧ isDigits ma ∧ isDigits mi
        ∧ (r :: rs).all (fun p => p.all Char.isAlphanum) then
      some ⟨if v = "manylinux".data then "many" else "musl",
            digitsToNat ma, digitsToNat mi, String.mk (joinWithChar '_' (r :: rs))⟩
    else none
  | _ => none

/-- Match of `MACOSX_RE` against a tag. -/
def parseMacosx (s : String) : Option MacTag :=
  match splitOnChar '_' s.data with
  | v :: ma :: mi :: r :: rs =>
    if v = "macosx".data ∧ isDigits ma ∧ isDigits mi
        ∧ (r :: rs).all (fun p => p.all Char.isAlphanum) then
      some ⟨digitsToNat ma, digitsToNat mi, String.mk (joinWithChar '_' (r :: rs))⟩
    else none
  | _ => none

/-- Match of `LEGACY_MANYLINUX_RE` against a tag; the result is the canonical
glibc minor version (`2014 ↦ 17`, `2010 ↦ 12`, `1 ↦ 5`) together with the
captured arch. -/
def parseLegacy (s : String) : Option (Nat × String) :=
  if "manylinux2014_".data.isPrefixOf s.data then
    some (17, String.mk ((s.data.drop 14).takeWhile isTagChar))
  else if "manylinux2010_".data.isPrefixOf s.data then
    some (12, String.mk ((s.data.drop 14).takeWhile isTagChar))
  else if "manylinux1_".data.isPrefixOf s.data then
    some (5, String.mk ((s.data.drop 11).takeWhile isTagChar))
  else none

/-! ## expand_platform_tag -/

/-- The string `format!("{variant}linux_{major}_{minor}_{arch}")`. -/
def renderLinux (variant : String) (major minor : Nat) (arch : String) : String :=
  variant ++ "linux_" ++ toString major ++ "_" ++ toString minor ++ "_" ++ arch

/-- The string `format!("macosx_{major}_{minor}_{arch}")`. -/
def renderMacosx (major minor : Nat) (arch : String) : String :=
  "macosx_" ++ toString major ++ "_" ++ toString minor ++ "_" ++ arch

/-- The legacy alias emitted next to the canonical tag at glibc minor 17, 12
or 5 (`manylinux2014_* / manylinux2010_* / manylinux1_*`). -/
def aliasTag (minor : Nat) (arch : String) : String :=
  match minor with
  | 17 => "manylinux2014_" ++ arch
  | 12 => "manylinux2010_" ++ arch
  | 5 => "manylinux1_" ++ arch
  | _ => ""

/-- The alias tags pushed right after the canonical tag for one minor (the
`match (major, minor)` on the patterns `(2, 17)`, `(2, 12)`, `(2, 5)` in the
manylinux loop body); empty for musllinux. -/
def legacyAliases (major minor : Nat) (arch : String) : List String :=
  if major = 2 ∧ minor = 17 then ["manylinux2014_" ++ arch]
  else if major = 2 ∧ minor = 12 then ["manylinux2010_" ++ arch]
  else if major = 2 ∧ minor = 5 then ["manylinux1_" ++ arch]
  else []

/-- One iteration of the `for minor in (0..=max_minor).rev()` loop body. -/
def linuxTagBlock (variant : String) (major minor : Nat) (arch : String) : List String :=
  renderLinux variant major minor arch ::
    (if variant = "many" then legacyAliases major minor arch else [])

/-- The whole loop, with `minor` descending from `maxMinor` to `0`. -/
def linuxTags (variant : String) (major : Nat) (arch : String) : Nat → List String
  | 0 => linuxTagBlock variant major 0 arch
  | m + 1 => linuxTagBlock variant major (m + 1) arch ++ linuxTags variant major arch m

/-- The macOS arch families from `distutils.util.get_platform`. -/
def macArches (arch : String) : List String :=
  if arch = "x86_64" then
    ["x86_64", "universal2", "intel", "fat64", "fat3", "universal"]
  else if arch = "arm64" then ["arm64", "universal2"]
  else [arch]

/-- The iterator `(11..=major).rev()`. -/
def versDownTo11 : Nat → List Nat
  | 0 => []
  | m + 1 => if m + 1 ≥ 11 then (m + 1) :: versDownTo11 m else []

/-- The iterator `(0..=maxMinor).rev()`. -/
def downFrom : Nat → List Nat
  | 0 => [0]
  | m + 1 => (m + 1) :: downFrom m

/-- The chained version iterator `macos_11plus_vers.chain(macos_10_vers)`. -/
def macosxVers (major minor : Nat) : List (Nat × Nat) :=
  (versDownTo11 major).map (fun ma => (ma, 0)) ++
    (downFrom (if major = 10 then minor else 15)).map (fun mi => (10, mi))

/-- The cross product `all_vers × arches`, version-major outer. -/
def macosxTags (major minor : Nat) (arch : String) : List String :=
  (macosxVers major minor).flatMap
    (fun p => (macArches arch).map (fun a => renderMacosx p.1 p.2 a))

/-- Embedding of `expand_platform_tag`.  The source first rewrites a legacy
`manylinux{2014,2010,1}_<arch>` tag to its canonical `manylinux_2_<k>_<arch>`
form and re-matches it with `LINUX_RE`; since the rewritten string always
matches `LINUX_RE` again (the captured arch consists of tag characters only),
the embedding calls the linux expansion directly with the rewritten fields. -/
def expand_platform_tag (s : String) : List String :=
  match parseLegacy s with
  | some (minor, arch) => linuxTags "many" 2 arch minor
  | none =>
    match parseLinux s with
    | some lt => linuxTags lt.variant lt.major lt.arch lt.minor
    | none =>
      match parseMacosx s with
      | some mt =>
        if 10 ≤ mt.major then macosxTags mt.major mt.minor mt.arch else [s]
      | none => [s]

example : expand_platform_tag "manylinux_2_3_aarch64" =
    ["manylinux_2_3_aarch64", "manylinux_2_2_aarch64",
     "manylinux_2_1_aarch64", "manylinux_2_0_aarch64"] := by decide

example : expand_platform_tag "manylinux1_x86_64" =
    ["manylinux_2_5_x86_64", "manylinux1_x86_64", "manylinux_2_4_x86_64",
     "manylinux_2_3_x86_64", "manylinux_2_2_x86_64", "manylinux_2_1_x86_64",
     "manylinux_2_0_x86_64"] := by decide

example : expand_platform_tag "musllinux_1_2_x86_64" =
    ["musllinux_1_2_x86_64", "musllinux_1_1_x86_64", "musllinux_1_0_x86_64"] := by
  decide

example : expand_platform_tag "win32" = ["win32"] := by decide

example : expand_platform_tag "macosx_12_0_universal2" =
    ["macosx_12_0_universal2", "macosx_11_0_universal2",
     "macosx_10_15_universal2", "macosx_10_14_universal2",
     "macosx_10_13_universal2", "macosx_10_12_universal2",
     "macosx_10_11_universal2", "macosx_10_10_universal2",
     "macosx_10_9_universal2", "macosx_10_8_universal2",
     "macosx_10_7_universal2", "macosx_10_6_universal2",
     "macosx_10_5_universal2", "macosx_10_4_universal2",
     "macosx_10_3_universal2", "macosx_10_2_universal2",
     "macosx_10_1_universal2", "macosx_10_0_universal2"] := by decide

/-! ## PlatformImpl (the PlatformSet) -/

/-- Embedding of `PlatformImpl`: the `HashMap<String, i32>` becomes an
association list (later insertions are consed in front; keys are unique). -/
structure PlatformImpl where
  tagMap : List (String × Int)
  tags : List String
  counter : Int
deriving DecidableEq

def PlatformImpl.empty : PlatformImpl := ⟨[], [], 0⟩

/-- `PlatformImpl::push`. -/
def PlatformImpl.push (p : PlatformImpl) (tag : String) : PlatformImpl :=
  if (p.tagMap.lookup tag).isSome then p
  else ⟨(tag, p.counter) :: p.tagMap, p.tags ++ [tag], p.counter - 1⟩

/-- `PlatformImpl::compatibility`. -/
def PlatformImpl.compatibility (p : PlatformImpl) (tag : String) : Option Int :=
  p.tagMap.lookup tag

/-- A PlatformSet built by a sequence of `push` operations from `empty`. -/
def pushAll (tags : List String) : PlatformImpl :=
  tags.foldl PlatformImpl.push PlatformImpl.empty

/-- `PybiPlatform::from_core_tags`: push every expansion of every core tag. -/
def from_core_tags (coreTags : List String) : PlatformImpl :=
  pushAll (coreTags.flatMap expand_platform_tag)

/-- Index of the first occurrence of `t`, used to state the `PlatformImpl`
invariant (the score of the tag at position `i` is `-i`). -/
def firstIdx (t : String) : List String → Option Nat
  | [] => none
  | x :: xs => if x = t then some 0 else (firstIdx t xs).map (· + 1)

/-- The representation invariant of `PlatformImpl` maintained by `push`. -/
def PlatformImpl.inv (p : PlatformImpl) : Prop :=
  p.counter = -(p.tags.length : Int) ∧
  p.tags.Nodup ∧
  ∀ t, p.compatibility t = (firstIdx t p.tags).map (fun n => -(n : Int))

/-! ## compat_groups and the wheel-platform builder -/

/-- Outcome of a Rust function that may also `panic!` (via `assert!` or
`unwrap`) in addition to returning `Result`. -/
inductive ROutcome (α : Type) where
  | ok (a : α)
  | err (e : String)
  | assertFail
deriving DecidableEq

def ROutcome.toOption {α : Type} : ROutcome α → Option α
  | .ok a => some a
  | _ => none

/-- Embedding of `compat_groups`. -/
def compat_groups (tag : String) : Except String (List String) :=
  if "win".data.isPrefixOf tag.data then .ok [tag]
  else
    match parseMacosx tag with
    | some mt =>
      if mt.arch = "x86_64" ∨ mt.arch = "intel" ∨ mt.arch = "fat64"
          ∨ mt.arch = "fat3" ∨ mt.arch = "universal" then .ok ["macos-x86_64"]
      else if mt.arch = "arm64" then .ok ["macos-arm64"]
      else if mt.arch = "universal2" then .ok ["macos-x86_64", "macos-arm64"]
      else .error ("Unrecognized macOS architecture " ++ mt.arch)
    | none =>
      match parseLinux tag with
      | some lt => .ok [lt.variant ++ "linux-" ++ lt.arch]
      | none =>
        match parseLegacy tag with
        | some (_, arch) => .ok ["manylinux-" ++ arch]
        | none => .error ("unsupported platform tag " ++ tag)

/-- Set insertion for the `HashSet<String>` of candidate groups (the list is
kept duplicate free). -/
def insertNew (s : List String) (x : String) : List String :=
  if x ∈ s then s else s ++ [x]

/-- `groups.extend(compat_groups(tag)?)` over all `name.arch_tags`. -/
def unionGroups (archTags : List String) (acc : List String) :
    Except String (List String) :=
  match archTags with
  | [] => .ok acc
  | t :: rest =>
    match compat_groups t with
    | .error e => .error e
    | .ok gs => unionGroups rest (gs.foldl insertNew acc)

/-- The narrowing loop over `self.0.tags`: stop as soon as one group is left,
otherwise intersect with the groups of the next platform tag. -/
def narrow (platformTags : List String) (groups : List String) :
    Except String (List String) :=
  match platformTags with
  | [] => .ok groups
  | t :: rest =>
    if groups.length = 1 then .ok groups
    else
      match compat_groups t with
      | .error e => .error e
      | .ok tgs => narrow rest (groups.filter (· ∈ tgs))

/-- The final selection loop: the platform tags whose compat groups contain
the chosen group, in order. -/
def selectTags (platformTags : List String) (theGroup : String) :
    Except String (List String) :=
  match platformTags with
  | [] => .ok []
  | t :: rest =>
    match compat_groups t with
    | .error e => .error e
    | .ok gs =>
      match selectTags rest theGroup with
      | .error e => .error e
      | .ok sel => .ok (if theGroup ∈ gs then t :: sel else sel)

/-- `strip_suffix("-PLATFORM")`. -/
def stripPlatformSuffix (s : String) : Option String :=
  if "-PLATFORM".data.isSuffixOf s.data then
    some (String.mk (s.data.take (s.data.length - 9)))
  else none

/-- The wheel tags produced from one `Pybi-Wheel-Tag` template. -/
def templateTags (platformTags : List String) (template : String) : List String :=
  match stripPlatformSuffix template with
  | some stem => platformTags.map (fun pt => stem ++ "-" ++ pt)
  | none => [template]

/-- Embedding of `PybiPlatform::wheel_platform_for_pybi`.  `selfTags` is
`self.0.tags`, `archTags` is `name.arch_tags` and `metadataTags` is
`metadata.tags` (the wheel-tag templates).  The two `assert!`s of the source
become the `assertFail` outcome. -/
def wheel_platform_for_pybi (selfTags archTags metadataTags : List String) :
    ROutcome PlatformImpl :=
  match unionGroups archTags [] with
  | .error e => .err e
  | .ok groups =>
    if groups.length = 0 then .assertFail   -- assert!(!groups.is_empty())
    else
      match narrow selfTags groups with
      | .error e => .err e
      | .ok g =>
        if h : g.length = 1 then
          let theGroup := g.head (by simp [← List.length_pos_iff_ne_nil, h])
          match selectTags selfTags theGroup with
          | .error e => .err e
          | .ok platformTags =>
            .ok (pushAll (metadataTags.flatMap (templateTags platformTags)))
        else .assertFail                    -- assert!(groups.len() == 1)

/-- Embedding of `WheelPlatform::infer_platform_machine`'s inner loop over
one tag's compat groups. -/
def machineOfGroups : List String → Option String
  | [] => none
  | g :: gs =>
    if g = "macos-x86_64" then some "x86_64"
    else if g = "macos-arm64" then some "arm64"
    else machineOfGroups gs

/-- The value `infer_platform_machine` extracts from one tag
(`compat_groups(tag).unwrap_or(vec![])` scanned for a macOS group). -/
def machineOfTag (t : String) : Option String :=
  machineOfGroups ((compat_groups t).toOption.getD [])

/-- Embedding of `WheelPlatform::infer_platform_machine` (the apostrophe of
the original message "can't infer ..." is elided). -/
def infer_platform_machine : List String → Except String String
  | [] => .error "cant infer platform_machine for this platform/pybi"
  | t :: rest =>
    match machineOfTag t with
    | some m => .ok m
    | none => infer_platform_machine rest

/-! ## Versions, specifiers and the version selector -/

/-- Modelled from the spec: versions are totally ordered values with a
pre-release flag (the PEP 440 version type lives outside `src/`); `ord` is
the position of the version in that total order and `pre` is
`Version::is_prerelease`. -/
structure Version where
  ord : Nat
  pre : Bool
deriving DecidableEq

/-- Modelled from the spec: `Specifiers` is "a conjunction of version
constraints convertible to a disjoint union of half-open version ranges", so
it is embedded as a list (conjunction) of lists (unions) of half-open ranges
`[lo, hi)` with `none` as the upper sentinel `∞`.  The parsing of specifier
strings lives outside `src/` and is not modelled: `requires_python` data is
carried in already-parsed form. -/
def Specifiers : Type := List (List (Version × Option Version))

instance : DecidableEq Specifiers := by
  unfold Specifiers
  infer_instance

/-- `Specifiers::satisfied_by`. -/
def satisfiedBy (specs : Specifiers) (v : Version) : Bool :=
  specs.all fun ranges =>
    ranges.any fun r =>
      r.1.ord ≤ v.ord &&
        (match r.2 with
         | some hi => v.ord < hi.ord
         | none => true)

/-- The fields of `ArtifactInfo` that `fetch_and_sort_versions` reads. -/
structure ArtifactInfo where
  hash : Option String
  requiresPython : Option Specifiers
  yanked : Bool
deriving DecidableEq

/-- The per-artifact acceptance test in the body of the version loop: a
yanked artifact survives only when its hash is pinned by the hint, and when
both a python version and a `requires_python` are present the specifier must
admit the python version. -/
def artifactOk (hashHints : Option (List String)) (pythonVersion : Option Version)
    (ai : ArtifactInfo) : Bool :=
  (if ai.yanked then
     match hashHints, ai.hash with
     | some hints, some hash => hash ∈ hints
     | _, _ => false
   else true) &&
  (match pythonVersion, ai.requiresPython with
   | some pv, some rp => satisfiedBy rp pv
   | _, _ => true)

/-- The sort key comparison of `versions.sort_unstable_by_key`: the key is
`(version_hint != Some(v), Reverse(v))`, compared lexicographically
(`false` before `true`, then higher versions first). -/
def sortLe (versionHint : Option Version) (a b : Version) : Bool :=
  let ma : Bool := decide (versionHint ≠ some a)
  let mb : Bool := decide (versionHint ≠ some b)
  (!ma && mb) || ((ma == mb) && decide (b.ord ≤ a.ord))

/-- Embedding of `fetch_and_sort_versions`.  `allowPre` is
`brief.allow_pre.allow_pre_for(package)`, `available` is the PackageDB's
`available_artifacts` listing and `hint` is `hints.0.get(package)`.  The
`sort_unstable_by_key` call is embedded as a sort by the same key comparison
(any correct sort; ties can only occur between versions with equal order
position). -/
def fetch_and_sort_versions (allowPre : Bool)
    (available : List (Version × List ArtifactInfo))
    (pythonVersion : Option Version) (hint : Option (Version × List String)) :
    List Version :=
  let versionHint := hint.map Prod.fst
  let hashHints := hint.map Prod.snd
  let versions := available.filterMap fun va =>
    if !allowPre && va.1.pre then none
    else if va.2.any (artifactOk hashHints pythonVersion) then some va.1
    else none
  versions.insertionSort (fun a b => sortLe versionHint a b = true)

/-! ## The resolver adapter: choose_package_version and solution collection -/

/-- The virtual package type `ResPkg`. -/
inductive ResPkg where
  | root
  | package (name : String) (extra : Option String)
deriving DecidableEq

/-- `ROOT_VERSION`, the synthetic version `0`. -/
def rootVersion : Version := ⟨0, false⟩

/-- Modelled from the spec: a pubgrub `Range<Version>` (the pubgrub crate is
an external collaborator) is a union of half-open ranges with the `∞`
sentinel, and `contains` tests membership. -/
def PRange : Type := List (Version × Option Version)

def rangeContains (range : PRange) (v : Version) : Bool :=
  range.any fun r =>
    r.1.ord ≤ v.ord &&
      (match r.2 with
       | some hi => v.ord < hi.ord
       | none => true)

/-- The metadata fields the resolver reads (`WheelResolveMetadataInner`);
`requiresDist` is carried opaquely (no claim inspects it). -/
structure WheelResolveMetadataInner where
  requiresDist : List String
  requiresPython : Specifiers
  extras : List String
deriving DecidableEq

/-- The resolver state visible to `choose_package_version`: `versionsOf`
abstracts the memoized `self.versions(name)` (the result of
`fetch_and_sort_versions`), `metadataOf` abstracts the memoized
`self.metadata(release)` fetch, which can fail. -/
structure RState where
  versionsOf : String → List Version
  metadataOf : String → Version → Except String WheelResolveMetadataInner
  pythonFullVersion : Version

/-- The integrity-error message of `choose_package_version` (apostrophe of
"didn't" elided). -/
def badRequiresPythonMsg (name : String) (v : Version) : String :=
  name ++ " " ++ toString v.ord ++ ": bad requires-python, but pypi didnt tell us!"

/-- The version loop of `choose_package_version`: skip versions outside the
range; for the first one inside, load metadata and check `requires_python`
against the resolve-wide python version. -/
def chooseLoop (st : RState) (name : String) (range : PRange) :
    List Version → Except String (Option Version)
  | [] => .ok none
  | v :: rest =>
    if !rangeContains range v then chooseLoop st name range rest
    else
      match st.metadataOf name v with
      | .error e => .error e
      | .ok m =>
        if !satisfiedBy m.requiresPython st.pythonFullVersion then
          .error (badRequiresPythonMsg name v)
        else .ok (some v)

/-- Embedding of `choose_package_version`: take the first offered candidate
(`potential_packages.next().unwrap()` — a panic on an empty iterator), answer
`Root` with the synthetic version 0, and otherwise run the version loop. -/
def choose_package_version (st : RState) (potential : List (ResPkg × PRange)) :
    ROutcome (ResPkg × Option Version) :=
  match potential with
  | [] => .assertFail
  | (pkg, range) :: _ =>
    match pkg with
    | .root => .ok (pkg, some rootVersion)
    | .package name _ =>
      match chooseLoop st name range (st.versionsOf name) with
      | .error e => .err e
      | .ok ov => .ok (pkg, ov)

/-- The solution filter of `resolve_wheels`: drop `Root` and every
`Package(_, Some(_))` entry, keep base packages with their version and the
cached metadata (`expected_metadata.get(..).unwrap()` is modelled by the
total cache lookup `meta`). -/
def extractWheels (solution : List (ResPkg × Version))
    (meta : String → Version → WheelResolveMetadataInner) :
    List (String × Version × WheelResolveMetadataInner) :=
  solution.filterMap fun pv =>
    match pv.1 with
    | .root => none
    | .package _ (some _) => none
    | .package name none => some (name, pv.2, meta name pv.2)

/-! ## AllowPre serialization -/

/-- The `AllowPre` enum (`HashSet<PackageName>` modelled as a list). -/
inductive AllowPre where
  | some (pkgs : List String)
  | all
deriving DecidableEq

/-- The serde-untagged wire form `AllowPreSerdeHelper`: either a sequence of
package names or a bare string. -/
inductive AllowPreWire where
  | list (pkgs : List String)
  | str (s : String)
deriving DecidableEq

/-- `From<AllowPre> for AllowPreSerdeHelper` (serialization). -/
def serializeAllowPre : AllowPre → AllowPreWire
  | .some pkgs => .list pkgs
  | .all => .str ":all:"

/-- `TryFrom<AllowPreSerdeHelper> for AllowPre` (deserialization; the quotes
around :all: in the original message are elided). -/
def deserializeAllowPre : AllowPreWire → Except String AllowPre
  | .list pkgs => .ok (.some pkgs)
  | .str v =>
    if v = ":all:" then .ok .all
    else .error "expected a list of packages or the magic string :all:"

/-! ## SeekSlice -/

/-- The `u64` bound: all stream positions are below `2 ^ 64`. -/
def u64Bound : Nat := 2 ^ 64

/-- `std::io::SeekFrom`. -/
inductive SeekFrom where
  | start (n : Nat)
  | fromEnd (n : Int)
  | fromCurrent (n : Int)
deriving DecidableEq

/-- The error kind of the two failure branches of `SeekSlice::seek`. -/
inductive IoErrorKind where
  | invalidInput
deriving DecidableEq

/-- `SeekSlice` over bytes `[start, endPos)` of an inner stream (`end` in the
source; renamed because `end` is a Lean keyword).  `SeekSlice::new` asserts
`end >= start`, seeks the inner stream to `start` and sets `current` to the
result, so a freshly constructed slice has `current = start`. -/
structure SeekSlice where
  start : Nat
  endPos : Nat
  current : Nat
deriving DecidableEq

def SeekSlice.new (start endPos : Nat) : SeekSlice := ⟨start, endPos, start⟩

/-- `u64::checked_add`. -/
def checkedAdd (a b : Nat) : Option Nat :=
  if a + b < u64Bound then some (a + b) else none

/-- The helper `checked_add_signed(a, b)` of `seek_slice.rs`: for negative
`b` it is `a.checked_sub(b.abs() as u64)` (for `b = i64::MIN` the release
behaviour subtracts `2 ^ 63`, which `(-b).toNat` also gives). -/
def checkedAddSigned (a : Nat) (b : Int) : Option Nat :=
  if 0 ≤ b then checkedAdd a b.toNat
  else if (-b).toNat ≤ a then some (a - (-b).toNat) else none

/-- The resolved absolute seek target (`maybe_goal_idx`). -/
def resolveGoal (s : SeekSlice) (pos : SeekFrom) : Option Nat :=
  match pos with
  | .start n => checkedAdd s.start n
  | .fromEnd n => checkedAddSigned s.endPos n
  | .fromCurrent n => checkedAddSigned s.current n

/-- Embedding of `SeekSlice::seek`: the inner stream is modelled as ideal
(`inner.seek(Start(goal))` returns `goal`), the mutable `self` becomes the
returned first component, and errors leave it unchanged. -/
def SeekSlice.seek (s : SeekSlice) (pos : SeekFrom) :
    SeekSlice × Except (IoErrorKind × String) Nat :=
  match resolveGoal s pos with
  | some goal =>
    if goal < s.start ∨ s.endPos ≤ goal then
      (s, .error (.invalidInput, "invalid seek to a negative or overflowing position"))
    else ({ s with current := goal }, .ok (goal - s.start))
  | none => (s, .error (.invalidInput, "integer overflow while seeking"))

/-! # Theorems -/

/-! ## C9: AllowPre serialization -/

/-- C9 (confirmed): serializing `AllowPre::All` yields exactly the sentinel
string `":all:"`, deserializing `":all:"` yields `AllowPre::All`, the
explicit variant round-trips its set of package names, and deserializing any
other string is an error. -/
theorem allowPre_serde_spec :
    serializeAllowPre .all = .str ":all:" ∧
    deserializeAllowPre (.str ":all:") = .ok .all ∧
    (∀ a : AllowPre, deserializeAllowPre (serializeAllowPre a) = .ok a) ∧
    (∀ s : String, s ≠ ":all:" →
      deserializeAllowPre (.str s) =
        .error "expected a list of packages or the magic string :all:") := by
  refine ⟨rfl, rfl, ?_, ?_⟩
  · intro a; cases a <;> rfl
  · intro s hs; simp [deserializeAllowPre, hs]

/-- Witness for C9 at the concrete non-sentinel string `"x"`. -/
theorem allowPre_serde_spec_witness :
    ("x" : String) ≠ ":all:" ∧
      deserializeAllowPre (.str "x") =
        .error "expected a list of packages or the magic string :all:" :=
  ⟨by decide, allowPre_serde_spec.2.2.2 "x" (by decide)⟩

/-! ## C10: SeekSlice::seek -/

/-- C10 (confirmed): a successful seek updates only `current`, returns the
new position relative to `start` and leaves the absolute position inside
`[start, end)`; a seek whose resolved target is below `start` or at/after
`end` — including a seek to offset exactly `end - start` — or whose target
arithmetic overflows, returns an `InvalidInput` error and leaves the
position unchanged. -/
theorem seekSlice_seek_spec (s : SeekSlice) (pos : SeekFrom) :
    (∀ s2 r, s.seek pos = (s2, .ok r) →
      s2.start = s.start ∧ s2.endPos = s.endPos ∧ s2.current = s.start + r ∧
        s.start ≤ s2.current ∧ s2.current < s.endPos) ∧
    (∀ goal, resolveGoal s pos = some goal → goal < s.start ∨ s.endPos ≤ goal →
      s.seek pos =
        (s, .error (.invalidInput, "invalid seek to a negative or overflowing position"))) ∧
    (resolveGoal s pos = none →
      s.seek pos = (s, .error (.invalidInput, "integer overflow while seeking"))) ∧
    (s.start ≤ s.endPos → s.endPos < u64Bound →
      s.seek (.start (s.endPos - s.start)) =
        (s, .error (.invalidInput, "invalid seek to a negative or overflowing position"))) := by
  refine ⟨?_, ?_, ?_, ?_⟩
  · intro s2 r h
    unfold SeekSlice.seek at h
    cases hg : resolveGoal s pos with
    | none => simp only [hg] at h; simp at h
    | some goal =>
      simp only [hg] at h
      by_cases hb : goal < s.start ∨ s.endPos ≤ goal
      · rw [if_pos hb] at h; simp at h
      · rw [if_neg hb] at h
        push_neg at hb
        have h1 : s2 = { s with current := goal } := (congrArg Prod.fst h).symm
        have h2 : r = goal - s.start := by
          have h2' := congrArg Prod.snd h
          simpa using h2'.symm
        subst h1; subst h2
        refine ⟨rfl, rfl, ?_, ?_, ?_⟩
        · show goal = s.start + (goal - s.start)
          omega
        · exact hb.1
        · exact hb.2
  · intro goal hg hb
    unfold SeekSlice.seek
    simp only [hg]
    rw [if_pos hb]
  · intro hg
    unfold SeekSlice.seek
    simp only [hg]
  · intro hle hbound
    have hres : resolveGoal s (.start (s.endPos - s.start)) = some s.endPos := by
      simp only [resolveGoal, checkedAdd]
      rw [Nat.add_sub_cancel' hle]
      rw [if_pos hbound]
    unfold SeekSlice.seek
    simp only [hres]
    rw [if_pos (Or.inr (Nat.le_refl _))]

/-- Witness for C10: seeking the slice `[2, 8)` to its own length errors and
leaves the position unchanged. -/
theorem seekSlice_seek_spec_witness :
    SeekSlice.seek ⟨2, 8, 2⟩ (.start 6) =
      (⟨2, 8, 2⟩, .error (.invalidInput, "invalid seek to a negative or overflowing position")) := by
  have h := (seekSlice_seek_spec ⟨2, 8, 2⟩ (.start 6)).2.2.2
  simpa using h (by decide) (by norm_num [u64Bound])

/-! ## C3: wheel_platform_for_pybi failure modes -/

/-- C3 (corrected): when the union of the compat groups of the PYBI's
`arch_tags` is empty, or the narrowing walk over the platform's tags exits
with the candidate group set not containing exactly one group,
`wheel_platform_for_pybi` does not return an error result: it panics (the
two `assert!` statements), modelled by the `assertFail` outcome.  Error
results arise only from `compat_groups` failures. -/
theorem wheel_platform_assert_spec (selfTags archTags metadataTags : List String) :
    (unionGroups archTags [] = .ok [] →
      wheel_platform_for_pybi selfTags archTags metadataTags = .assertFail) ∧
    (∀ G g, unionGroups archTags [] = .ok G → G ≠ [] →
      narrow selfTags G = .ok g → g.length ≠ 1 →
      wheel_platform_for_pybi selfTags archTags metadataTags = .assertFail) := by
  constructor
  · intro h
    unfold wheel_platform_for_pybi
    simp only [h]
    rfl
  · intro G g hu hne hn hlen
    unfold wheel_platform_for_pybi
    simp only [hu]
    have hGl : G.length ≠ 0 := by simpa [List.length_eq_zero] using hne
    rw [if_neg hGl]
    simp only [hn]
    simp [hlen]

/-- Witness for C3 at the empty `arch_tags` list (empty compat-group union). -/
theorem wheel_platform_assert_spec_witness :
    wheel_platform_for_pybi [] [] [] = .assertFail :=
  (wheel_platform_assert_spec [] [] []).1 rfl

/-- Counterexample for C3 as stated: a platform that only carries
`universal2` tags cannot narrow a fat (`universal2`) PYBI's two candidate
groups down to one, and the call panics instead of returning an error
result. -/
theorem wheel_platform_assert_counterexample :
    wheel_platform_for_pybi ["macosx_11_0_universal2"] ["macosx_10_15_universal2"] [] =
      .assertFail := by decide

/-! ## C6: choose_package_version -/

/-- The version loop agrees with `find?` of the first in-range version. -/
theorem chooseLoop_eq (st : RState) (name : String) (range : PRange) :
    ∀ l : List Version,
      (l.find? (rangeContains range) = none → chooseLoop st name range l = .ok none) ∧
      (∀ v, l.find? (rangeContains range) = some v →
        chooseLoop st name range l =
          match st.metadataOf name v with
          | .error e => .error e
          | .ok m =>
            if !satisfiedBy m.requiresPython st.pythonFullVersion then
              .error (badRequiresPythonMsg name v)
            else .ok (some v)) := by
  intro l
  induction l with
  | nil => exact ⟨fun _ => rfl, fun v hv => by simp at hv⟩
  | cons x xs ih =>
    constructor
    · intro h
      rw [List.find?_cons] at h
      unfold chooseLoop
      cases hx : rangeContains range x with
      | true => rw [hx] at h; simp at h
      | false =>
        rw [hx] at h
        simp only [hx, Bool.not_false, if_pos]
        exact ih.1 h
    · intro v hv
      rw [List.find?_cons] at hv
      unfold chooseLoop
      cases hx : rangeContains range x with
      | true =>
        rw [hx] at hv
        obtain rfl : x = v := by simpa using hv
        simp only [hx, Bool.not_true, Bool.false_eq_true, if_false]
      | false =>
        rw [hx] at hv
        simp only [hx, Bool.not_false, if_pos]
        exact ih.2 v hv

/-- C6 (confirmed): `choose_package_version` takes the first offered
candidate; for `Root` it returns the synthetic version 0; otherwise it walks
the selector's ordered versions, skipping versions outside the range, and
for the first in-range version loads metadata and fails with an integrity
error exactly when that metadata's `requires_python` does not admit the
resolve-wide python version; when no version is in range it returns
no-candidate (`none`) rather than an error. -/
theorem choose_package_version_spec (st : RState) (range : PRange)
    (rest : List (ResPkg × PRange)) :
    (choose_package_version st ((.root, range) :: rest) =
      .ok (.root, some rootVersion)) ∧
    (∀ name extra,
      ((st.versionsOf name).find? (rangeContains range) = none →
        choose_package_version st ((.package name extra, range) :: rest) =
          .ok (.package name extra, none)) ∧
      (∀ v, (st.versionsOf name).find? (rangeContains range) = some v →
        (∀ e, st.metadataOf name v = .error e →
          choose_package_version st ((.package name extra, range) :: rest) = .err e) ∧
        (∀ m, st.metadataOf name v = .ok m →
          (satisfiedBy m.requiresPython st.pythonFullVersion = true →
            choose_package_version st ((.package name extra, range) :: rest) =
              .ok (.package name extra, some v)) ∧
          (satisfiedBy m.requiresPython st.pythonFullVersion = false →
            choose_package_version st ((.package name extra, range) :: rest) =
              .err (badRequiresPythonMsg name v))))) := by
  refine ⟨rfl, ?_⟩
  intro name extra
  constructor
  · intro h
    unfold choose_package_version
    simp only [(chooseLoop_eq st name range (st.versionsOf name)).1 h]
  · intro v hv
    have hloop := (chooseLoop_eq st name range (st.versionsOf name)).2 v hv
    constructor
    · intro e he
      unfold choose_package_version
      simp only [hloop, he]
    · intro m hm
      constructor
      · intro hsat
        unfold choose_package_version
        simp only [hloop, hm]
        simp [hsat]
      · intro hsat
        unfold choose_package_version
        simp only [hloop, hm]
        simp [hsat]

/-- Witness for C6: a concrete state with one in-range version whose
metadata admits the python version. -/
theorem choose_package_version_spec_witness :
    choose_package_version
        ⟨fun _ => [⟨5, false⟩], fun _ _ => .ok ⟨[], [], []⟩, ⟨7, false⟩⟩
        [(.package "foo" none, [(⟨0, false⟩, none)])] =
      .ok (.package "foo" none, some ⟨5, false⟩) := by
  have h := ((choose_package_version_spec
      ⟨fun _ => [⟨5, false⟩], fun _ _ => .ok ⟨[], [], []⟩, ⟨7, false⟩⟩
      [(⟨0, false⟩, none)] []).2 "foo" none).2 ⟨5, false⟩ (by decide)
  exact (h.2 ⟨[], [], []⟩ rfl).1 (by decide)

/-! ## C7: solution collection -/

/-- The name projection used by the solution filter. -/
theorem extractWheels_names (sol : List (ResPkg × Version))
    (meta : String → Version → WheelResolveMetadataInner) :
    (extractWheels sol meta).map (fun e => e.1) =
      sol.filterMap fun pv =>
        match pv.1 with
        | .package name none => some name
        | _ => none := by
  induction sol with
  | nil => rfl
  | cons x xs ih =>
    obtain ⟨pkg, v⟩ := x
    cases pkg with
    | root => simpa [extractWheels, List.filterMap_cons] using ih
    | package name extra =>
      cases extra with
      | none => simpa [extractWheels, List.filterMap_cons] using ih
      | some e => simpa [extractWheels, List.filterMap_cons] using ih

/-- C7 (confirmed): the wheel list assembled from a solver solution contains
no entry for `Root` and none for any extras package — every entry comes from
a base package `Package(name, None)` of the solution, carrying its chosen
version and the cached metadata — and when the solution maps each package to
one version (solutions are maps), the resulting names are pairwise distinct,
so the Blueprint has at most one pinned entry per base package. -/
theorem extractWheels_spec (sol : List (ResPkg × Version))
    (meta : String → Version → WheelResolveMetadataInner)
    (hnd : (sol.map Prod.fst).Nodup) :
    (∀ n v m, (n, v, m) ∈ extractWheels sol meta →
      (ResPkg.package n none, v) ∈ sol ∧ m = meta n v) ∧
    ((extractWheels sol meta).map (fun e => e.1)).Nodup := by
  constructor
  · intro n v m hmem
    rw [extractWheels, List.mem_filterMap] at hmem
    obtain ⟨⟨pkg, v'⟩, hin, heq⟩ := hmem
    cases pkg with
    | root => simp at heq
    | package name extra =>
      cases extra with
      | some e => simp at heq
      | none =>
        obtain ⟨rfl, rfl, rfl⟩ := by simpa using heq
        exact ⟨hin, rfl⟩
  · rw [extractWheels_names]
    have : (sol.filterMap fun pv =>
        match pv.1 with
        | ResPkg.package name none => some name
        | _ => none) =
        (sol.map Prod.fst).filterMap fun pkg =>
          match pkg with
          | ResPkg.package name none => some name
          | _ => none := by
      rw [List.filterMap_map]
      rfl
    rw [this]
    refine List.Nodup.filterMap ?_ hnd
    intro a a' c hc hc'
    cases a with
    | root => exact absurd hc (by simp)
    | package n e =>
      cases e with
      | some x => exact absurd hc (by simp)
      | none =>
        cases a' with
        | root => exact absurd hc' (by simp)
        | package n' e' =>
          cases e' with
          | some x => exact absurd hc' (by simp)
          | none =>
            have h1 : n = c := by simpa using hc
            have h2 : n' = c := by simpa using hc'
            rw [h1, h2]

/-- Witness for C7 on a concrete solution containing `Root`, a base package
and an extras package. -/
theorem extractWheels_spec_witness :
    ([ResPkg.root, ResPkg.package "foo" none, ResPkg.package "foo" (some "x")] =
      ([(ResPkg.root, (⟨0, false⟩ : Version)),
        (ResPkg.package "foo" none, ⟨3, false⟩),
        (ResPkg.package "foo" (some "x"), ⟨3, false⟩)].map Prod.fst)) ∧
    ((extractWheels
        [(ResPkg.root, ⟨0, false⟩),
         (ResPkg.package "foo" none, ⟨3, false⟩),
         (ResPkg.package "foo" (some "x"), ⟨3, false⟩)]
        (fun _ _ => ⟨[], [], []⟩)).map (fun e => e.1)).Nodup := by
  refine ⟨by decide, ?_⟩
  exact (extractWheels_spec _ (fun _ _ => ⟨[], [], []⟩) (by decide)).2

/-! ## C8: PlatformSet push invariant -/

theorem firstIdx_eq_none (t : String) :
    ∀ l : List String, firstIdx t l = none ↔ t ∉ l := by
  intro l
  induction l with
  | nil => simp [firstIdx]
  | cons x xs ih =>
    by_cases hx : x = t
    · subst hx; simp [firstIdx]
    · simp [firstIdx, hx, ih, Ne.symm hx]

theorem firstIdx_append_ne (t x : String) (hx : x ≠ t) :
    ∀ l : List String, firstIdx t (l ++ [x]) = firstIdx t l := by
  intro l
  induction l with
  | nil => simp [firstIdx, hx]
  | cons y ys ih =>
    by_cases hy : y = t
    · simp [firstIdx, hy]
    · simp [firstIdx, hy, ih]

theorem firstIdx_append_self (t : String) :
    ∀ l : List String, t ∉ l → firstIdx t (l ++ [t]) = some l.length := by
  intro l
  induction l with
  | nil => simp [firstIdx]
  | cons y ys ih =>
    intro hmem
    have hy : ¬y = t := fun h => hmem (by simp [h])
    have hys : t ∉ ys := fun h => hmem (by simp [h])
    simp [firstIdx, hy, ih hys]

theorem firstIdx_of_get? :
    ∀ (l : List String) (i : Nat) (a : String), l.Nodup → l.get? i = some a →
      firstIdx a l = some i := by
  intro l
  induction l with
  | nil => intro i a _ h; simp at h
  | cons x xs ih =>
    intro i a hnd h
    cases i with
    | zero =>
      obtain rfl : x = a := by simpa using h
      simp [firstIdx]
    | succ i =>
      have hxs : xs.get? i = some a := by simpa using h
      have hax : ¬x = a := by
        intro hxa
        subst hxa
        exact (List.nodup_cons.mp hnd).1 (List.get?_mem hxs)
      rw [firstIdx, if_neg hax, ih i a (List.nodup_cons.mp hnd).2 hxs]
      rfl

theorem inv_push (p : PlatformImpl) (hp : p.inv) (tag : String) :
    (p.push tag).inv := by
  obtain ⟨hc, hnd, hcomp⟩ := hp
  unfold PlatformImpl.push
  by_cases hmem : (p.tagMap.lookup tag).isSome
  · rw [if_pos hmem]; exact ⟨hc, hnd, hcomp⟩
  · rw [if_neg hmem]
    have htag : tag ∉ p.tags := by
      intro hin
      apply hmem
      have := hcomp tag
      rw [PlatformImpl.compatibility] at this
      rw [this]
      have : firstIdx tag p.tags ≠ none := fun h => ((firstIdx_eq_none tag _).mp h) hin
      cases hfi : firstIdx tag p.tags with
      | none => exact absurd hfi this
      | some i => simp
    refine ⟨?_, ?_, ?_⟩
    · show p.counter - 1 = -((p.tags ++ [tag]).length : Int)
      rw [List.length_append, List.length_singleton]
      rw [hc]
      push_cast
      ring
    · simp [List.nodup_append, hnd, htag]
    · intro t
      show List.lookup t ((tag, p.counter) :: p.tagMap) = _
      by_cases ht : t = tag
      · subst ht
        rw [List.lookup_cons_self]
        rw [firstIdx_append_self t p.tags htag]
        rw [hc]
        rfl
      · have hbeq : (t == tag) = false := by simpa using ht
        rw [List.lookup, hbeq]
        rw [firstIdx_append_ne t tag (Ne.symm ht) p.tags]
        exact hcomp t

theorem inv_foldl_push :
    ∀ (ts : List String) (p : PlatformImpl), p.inv →
      (ts.foldl PlatformImpl.push p).inv := by
  intro ts
  induction ts with
  | nil => intro p hp; exact hp
  | cons x xs ih => intro p hp; exact ih (p.push x) (inv_push p hp x)

theorem inv_pushAll (ts : List String) : (pushAll ts).inv :=
  inv_foldl_push ts PlatformImpl.empty ⟨rfl, List.nodup_nil, fun _ => rfl⟩

theorem foldl_push_tags_subset :
    ∀ (ts : List String) (p : PlatformImpl) (t : String),
      t ∈ (ts.foldl PlatformImpl.push p).tags → t ∈ p.tags ∨ t ∈ ts := by
  intro ts
  induction ts with
  | nil => intro p t h; exact Or.inl h
  | cons x xs ih =>
    intro p t h
    rcases ih (p.push x) t h with h1 | h1
    · unfold PlatformImpl.push at h1
      by_cases hmem : (p.tagMap.lookup x).isSome
      · rw [if_pos hmem] at h1; exact Or.inl h1
      · rw [if_neg hmem] at h1
        rcases List.mem_append.mp h1 with h2 | h2
        · exact Or.inl h2
        · right; simp at h2; simp [h2]
    · right; simp [h1]

/-- C8 (confirmed): in a PlatformSet built by a sequence of `push`
operations, every tag appears at most once, a tag inserted earlier has a
strictly greater compatibility score than any tag inserted later, and the
compatibility of a tag that was never pushed is absent. -/
theorem platformSet_push_spec (ts : List String) :
    (pushAll ts).tags.Nodup ∧
    (∀ i j a b, i < j → (pushAll ts).tags.get? i = some a →
      (pushAll ts).tags.get? j = some b →
      ∃ sa sb, (pushAll ts).compatibility a = some sa ∧
        (pushAll ts).compatibility b = some sb ∧ sb < sa) ∧
    (∀ t, t ∉ ts → (pushAll ts).compatibility t = none) := by
  obtain ⟨hc, hnd, hcomp⟩ := inv_pushAll ts
  refine ⟨hnd, ?_, ?_⟩
  · intro i j a b hij ha hb
    have hia := firstIdx_of_get? _ i a hnd ha
    have hib := firstIdx_of_get? _ j b hnd hb
    refine ⟨-(i : Int), -(j : Int), ?_, ?_, by omega⟩
    · rw [hcomp a, hia]; rfl
    · rw [hcomp b, hib]; rfl
  · intro t ht
    have hnotin : t ∉ (pushAll ts).tags := by
      intro hin
      rcases foldl_push_tags_subset ts PlatformImpl.empty t hin with h | h
      · simp [PlatformImpl.empty] at h
      · exact ht h
    rw [hcomp t, (firstIdx_eq_none t _).mpr hnotin]
    rfl

/-- Witness for C8 on the concrete push sequence `["a", "b", "a"]`. -/
theorem platformSet_push_spec_witness :
    (0 : Nat) < 1 ∧ (pushAll ["a", "b", "a"]).tags.get? 0 = some "a" ∧
    (pushAll ["a", "b", "a"]).tags.get? 1 = some "b" ∧
    ∃ sa sb, (pushAll ["a", "b", "a"]).compatibility "a" = some sa ∧
      (pushAll ["a", "b", "a"]).compatibility "b" = some sb ∧ sb < sa :=
  ⟨by decide, by decide, by decide,
   (platformSet_push_spec ["a", "b", "a"]).2.1 0 1 "a" "b" (by decide) (by decide)
     (by decide)⟩

/-! ## Expansion lemmas for C2 and C4 -/

theorem linuxTags_succ (variant : String) (major : Nat) (arch : String) (m : Nat) :
    linuxTags variant major arch (m + 1) =
      linuxTagBlock variant major (m + 1) arch ++ linuxTags variant major arch m := rfl

theorem linuxTags_head (variant : String) (major : Nat) (arch : String) :
    ∀ m, (linuxTags variant major arch m).head? =
      some (renderLinux variant major m arch) := by
  intro m
  cases m with
  | zero => rfl
  | succ m => rfl

theorem macArches_cons (arch : String) : ∃ t, macArches arch = arch :: t := by
  unfold macArches
  split_ifs with h1 h2
  · exact ⟨_, by rw [h1]⟩
  · exact ⟨_, by rw [h2]⟩
  · exact ⟨[], rfl⟩

theorem downFrom_cons (m : Nat) : ∃ t, downFrom m = m :: t := by
  cases m with
  | zero => exact ⟨[], rfl⟩
  | succ m => exact ⟨_, rfl⟩

theorem versDownTo11_cons (m : Nat) (h : 11 ≤ m + 1) :
    versDownTo11 (m + 1) = (m + 1) :: versDownTo11 m := by
  conv_lhs => rw [versDownTo11]
  rw [if_pos h]

theorem macosxTags_head (major minor : Nat) (arch : String) (h : 10 ≤ major) :
    (macosxTags major minor arch).head? =
      some (renderMacosx major (if major = 10 then minor else 0) arch) := by
  obtain ⟨ta, hta⟩ := macArches_cons arch
  by_cases h10 : major = 10
  · subst h10
    obtain ⟨td, htd⟩ := downFrom_cons minor
    have hv : macosxVers 10 minor = (10, minor) :: td.map (fun mi => (10, mi)) := by
      unfold macosxVers
      have h11 : versDownTo11 10 = [] := rfl
      rw [h11, if_pos rfl, htd]
      simp
    unfold macosxTags
    rw [hv, hta]
    simp
  · have h11 : 11 ≤ major := by omega
    obtain ⟨m, rfl⟩ : ∃ m, major = m + 1 := ⟨major - 1, by omega⟩
    have hv : macosxVers (m + 1) minor =
        (m + 1, 0) :: ((versDownTo11 m).map (fun ma => (ma, 0)) ++
          (downFrom 15).map (fun mi => (10, mi))) := by
      unfold macosxVers
      rw [versDownTo11_cons m h11, if_neg h10]
      simp
    unfold macosxTags
    rw [hv, hta]
    simp [h10]

theorem parseLegacy_minor (s : String) (mi : Nat) (arch : String)
    (h : parseLegacy s = some (mi, arch)) : mi = 17 ∨ mi = 12 ∨ mi = 5 := by
  unfold parseLegacy at h
  split_ifs at h <;> simp_all

theorem renderLinux_many_get9 (M mi : Nat) (a : String) :
    (renderLinux "many" M mi a).data.get? 9 = some '_' := by
  simp only [renderLinux, String.data_append, List.append_assoc]
  rfl

theorem alias17_get9 (a : String) :
    ("manylinux2014_" ++ a).data.get? 9 = some '2' := by
  simp only [String.data_append]; rfl

theorem alias12_get9 (a : String) :
    ("manylinux2010_" ++ a).data.get? 9 = some '2' := by
  simp only [String.data_append]; rfl

theorem alias5_get9 (a : String) :
    ("manylinux1_" ++ a).data.get? 9 = some '1' := by
  simp only [String.data_append]; rfl

theorem alias17_get12 (a : String) :
    ("manylinux2014_" ++ a).data.get? 12 = some '4' := by
  simp only [String.data_append]; rfl

theorem alias12_get12 (a : String) :
    ("manylinux2010_" ++ a).data.get? 12 = some '0' := by
  simp only [String.data_append]; rfl

theorem renderLinux_ne_alias (M mi : Nat) (a : String) (k : Nat)
    (hk : k = 17 ∨ k = 12 ∨ k = 5) : renderLinux "many" M mi a ≠ aliasTag k a := by
  intro h
  have h9 := congrArg (fun s => s.data.get? 9) h
  simp only at h9
  rw [renderLinux_many_get9] at h9
  rcases hk with rfl | rfl | rfl
  · rw [show aliasTag 17 a = "manylinux2014_" ++ a from rfl, alias17_get9] at h9
    simp at h9
  · rw [show aliasTag 12 a = "manylinux2010_" ++ a from rfl, alias12_get9] at h9
    simp at h9
  · rw [show aliasTag 5 a = "manylinux1_" ++ a from rfl, alias5_get9] at h9
    simp at h9

theorem alias17_ne_alias12 (a : String) :
    "manylinux2014_" ++ a ≠ "manylinux2010_" ++ a := by
  intro h
  have h12 := congrArg (fun s => s.data.get? 12) h
  simp only at h12
  rw [alias17_get12, alias12_get12] at h12
  simp at h12

theorem alias17_ne_alias5 (a : String) :
    "manylinux2014_" ++ a ≠ "manylinux1_" ++ a := by
  intro h
  have h9 := congrArg (fun s => s.data.get? 9) h
  simp only at h9
  rw [alias17_get9, alias5_get9] at h9
  simp at h9

theorem alias12_ne_alias5 (a : String) :
    "manylinux2010_" ++ a ≠ "manylinux1_" ++ a := by
  intro h
  have h9 := congrArg (fun s => s.data.get? 9) h
  simp only at h9
  rw [alias12_get9, alias5_get9] at h9
  simp at h9

theorem aliasTag_inj (k k' : Nat) (a : String)
    (hk : k = 17 ∨ k = 12 ∨ k = 5) (hk' : k' = 17 ∨ k' = 12 ∨ k' = 5)
    (h : aliasTag k a = aliasTag k' a) : k = k' := by
  rcases hk with rfl | rfl | rfl <;> rcases hk' with rfl | rfl | rfl
  · rfl
  · exact absurd h (alias17_ne_alias12 a)
  · exact absurd h (alias17_ne_alias5 a)
  · exact absurd h.symm (alias17_ne_alias12 a)
  · rfl
  · exact absurd h (alias12_ne_alias5 a)
  · exact absurd h.symm (alias17_ne_alias5 a)
  · exact absurd h.symm (alias12_ne_alias5 a)
  · rfl

theorem mem_linuxTags_of_le (variant : String) (major : Nat) (arch : String) :
    ∀ m minor, minor ≤ m →
      renderLinux variant major minor arch ∈ linuxTags variant major arch m := by
  intro m
  induction m with
  | zero =>
    intro minor h
    obtain rfl : minor = 0 := Nat.le_zero.mp h
    exact List.mem_cons_self _ _
  | succ m ih =>
    intro minor h
    rw [linuxTags_succ]
    rcases Nat.lt_or_ge minor (m + 1) with h1 | h1
    · exact List.mem_append_right _ (ih minor (Nat.lt_succ_iff.mp h1))
    · obtain rfl : minor = m + 1 := Nat.le_antisymm h h1
      exact List.mem_append_left _ (List.mem_cons_self _ _)

theorem alias_mem_legacyAliases (major minor : Nat) (arch : String) (k : Nat)
    (hk : k = 17 ∨ k = 12 ∨ k = 5) :
    aliasTag k arch ∈ legacyAliases major minor arch ↔ major = 2 ∧ minor = k := by
  unfold legacyAliases
  split_ifs with h1 h2 h3
  · simp only [List.mem_singleton]
    constructor
    · intro h
      have hk17 : k = 17 := aliasTag_inj k 17 arch hk (Or.inl rfl)
        (h.trans (show aliasTag 17 arch = "manylinux2014_" ++ arch from rfl).symm)
      exact ⟨h1.1, h1.2.trans hk17.symm⟩
    · rintro ⟨hmaj, hmin⟩
      have hk17 : k = 17 := hmin.symm.trans h1.2
      subst hk17
      rfl
  · simp only [List.mem_singleton]
    constructor
    · intro h
      have hk12 : k = 12 := aliasTag_inj k 12 arch hk (Or.inr (Or.inl rfl))
        (h.trans (show aliasTag 12 arch = "manylinux2010_" ++ arch from rfl).symm)
      exact ⟨h2.1, h2.2.trans hk12.symm⟩
    · rintro ⟨hmaj, hmin⟩
      have hk12 : k = 12 := hmin.symm.trans h2.2
      subst hk12
      rfl
  · simp only [List.mem_singleton]
    constructor
    · intro h
      have hk5 : k = 5 := aliasTag_inj k 5 arch hk (Or.inr (Or.inr rfl))
        (h.trans (show aliasTag 5 arch = "manylinux1_" ++ arch from rfl).symm)
      exact ⟨h3.1, h3.2.trans hk5.symm⟩
    · rintro ⟨hmaj, hmin⟩
      have hk5 : k = 5 := hmin.symm.trans h3.2
      subst hk5
      rfl
  · simp only [List.not_mem_nil, false_iff]
    rintro ⟨hmaj, hmin⟩
    rcases hk with rfl | rfl | rfl
    · exact h1 ⟨hmaj, hmin⟩
    · exact h2 ⟨hmaj, hmin⟩
    · exact h3 ⟨hmaj, hmin⟩

theorem alias_mem_block (major minor : Nat) (arch : String) (k : Nat)
    (hk : k = 17 ∨ k = 12 ∨ k = 5) :
    aliasTag k arch ∈ linuxTagBlock "many" major minor arch ↔
      major = 2 ∧ minor = k := by
  unfold linuxTagBlock
  rw [if_pos rfl, List.mem_cons]
  constructor
  · rintro (h | h)
    · exact absurd h.symm (renderLinux_ne_alias major minor arch k hk)
    · exact (alias_mem_legacyAliases major minor arch k hk).mp h
  · intro h
    exact Or.inr ((alias_mem_legacyAliases major minor arch k hk).mpr h)

theorem alias_mem_linuxTags (major : Nat) (arch : String) (k : Nat)
    (hk : k = 17 ∨ k = 12 ∨ k = 5) :
    ∀ m, aliasTag k arch ∈ linuxTags "many" major arch m ↔ major = 2 ∧ k ≤ m := by
  intro m
  induction m with
  | zero =>
    show aliasTag k arch ∈ linuxTagBlock "many" major 0 arch ↔ _
    rw [alias_mem_block major 0 arch k hk]
    constructor
    · rintro ⟨rfl, rfl⟩
      rcases hk with h | h | h <;> simp at h
    · rintro ⟨rfl, hle⟩
      rcases hk with rfl | rfl | rfl <;> omega
  | succ m ih =>
    rw [linuxTags_succ, List.mem_append, alias_mem_block major (m + 1) arch k hk, ih]
    constructor
    · rintro (⟨rfl, rfl⟩ | ⟨rfl, hle⟩)
      · exact ⟨rfl, Nat.le_refl _⟩
      · exact ⟨rfl, Nat.le_succ_of_le hle⟩
    · rintro ⟨rfl, hle⟩
      rcases Nat.lt_or_ge m k with h1 | h1
      · exact Or.inl ⟨rfl, by omega⟩
      · exact Or.inr ⟨rfl, h1⟩

theorem block_pair (arch : String) (k : Nat) (hk : k = 17 ∨ k = 12 ∨ k = 5) :
    linuxTagBlock "many" 2 k arch =
      [renderLinux "many" 2 k arch, aliasTag k arch] := by
  rcases hk with rfl | rfl | rfl <;> rfl

theorem infix_append_left {α : Type} (l s t : List α) (h : l <:+: t) :
    l <:+: s ++ t := by
  obtain ⟨u, v, huv⟩ := h
  exact ⟨s ++ u, v, by rw [← huv]; simp⟩

theorem canon_alias_infix (arch : String) (k : Nat)
    (hk : k = 17 ∨ k = 12 ∨ k = 5) :
    ∀ m, k ≤ m →
      [renderLinux "many" 2 k arch, aliasTag k arch] <:+:
        linuxTags "many" 2 arch m := by
  intro m
  induction m with
  | zero =>
    intro h
    rcases hk with rfl | rfl | rfl <;> omega
  | succ m ih =>
    intro h
    rw [linuxTags_succ]
    rcases Nat.lt_or_ge m k with h1 | h1
    · obtain rfl : k = m + 1 := by omega
      rw [block_pair arch (m + 1) hk]
      exact ⟨[], linuxTags "many" 2 arch m, by simp⟩
    · exact infix_append_left _ _ _ (ih h1)

/-! ## C2: first element of the expansion -/

/-- C2 (corrected): after legacy rewriting, the expansion of a recognized
`(many|musl)linux` tag starts with its canonical rendering, and for a legacy
`manylinux{2014,2010,1}` tag the canonical `manylinux_2_{17,12,5}` tag comes
first with the legacy alias immediately after it; but for a recognized
`macosx_<M>_<m>_<arch>` tag with `M ≥ 11` the first element has its minor
version reset to `0` (so `expand(t)[0] = t` only when `m = 0`), while for
`M = 10` the first element is the tag itself; all remaining tags (including
`win*` and macosx tags with `M < 10`) expand to the one-element list `[t]`. -/
theorem expand_first_element (s : String) :
    (∀ lt, parseLegacy s = none → parseLinux s = some lt →
      (expand_platform_tag s).head? =
        some (renderLinux lt.variant lt.major lt.minor lt.arch)) ∧
    (∀ mi arch, parseLegacy s = some (mi, arch) →
      (expand_platform_tag s).head? = some (renderLinux "many" 2 mi arch) ∧
      (expand_platform_tag s).tail.head? = some (aliasTag mi arch)) ∧
    (∀ mt, parseLegacy s = none → parseLinux s = none → parseMacosx s = some mt →
      10 ≤ mt.major →
      (expand_platform_tag s).head? =
        some (renderMacosx mt.major (if mt.major = 10 then mt.minor else 0) mt.arch)) ∧
    (parseLegacy s = none → parseLinux s = none →
      (∀ mt, parseMacosx s = some mt → mt.major < 10) →
      expand_platform_tag s = [s]) := by
  refine ⟨?_, ?_, ?_, ?_⟩
  · intro lt hleg hlin
    unfold expand_platform_tag
    simp only [hleg, hlin]
    exact linuxTags_head lt.variant lt.major lt.arch lt.minor
  · intro mi arch hleg
    have hmi := parseLegacy_minor s mi arch hleg
    unfold expand_platform_tag
    simp only [hleg]
    refine ⟨linuxTags_head "many" 2 arch mi, ?_⟩
    rcases hmi with rfl | rfl | rfl <;> rfl
  · intro mt hleg hlin hmac h10
    unfold expand_platform_tag
    simp only [hleg, hlin, hmac]
    rw [if_pos h10]
    exact macosxTags_head mt.major mt.minor mt.arch h10
  · intro hleg hlin hmac
    unfold expand_platform_tag
    simp only [hleg, hlin]
    cases hm : parseMacosx s with
    | none => rfl
    | some mt =>
      show (if 10 ≤ mt.major then macosxTags mt.major mt.minor mt.arch else [s]) = [s]
      rw [if_neg (Nat.not_le.mpr (hmac mt hm))]

/-- Witness for C2 at the legacy tag `manylinux1_x86_64`. -/
theorem expand_first_element_witness :
    (expand_platform_tag "manylinux1_x86_64").head? = some "manylinux_2_5_x86_64" ∧
    (expand_platform_tag "manylinux1_x86_64").tail.head? = some "manylinux1_x86_64" := by
  have h := (expand_first_element "manylinux1_x86_64").2.1 5 "x86_64" (by decide)
  exact ⟨h.1.trans (by decide), h.2.trans (by decide)⟩

/-- Counterexample for C2 as stated: `macosx_12_5_x86_64` is a recognized
non-legacy tag with major 12 and nonzero minor 5, yet the first element of
its expansion is not the tag itself (the minor is reset to 0). -/
theorem expand_first_element_counterexample :
    (expand_platform_tag "macosx_12_5_x86_64").head? ≠ some "macosx_12_5_x86_64" ∧
    (expand_platform_tag "macosx_12_5_x86_64").head? = some "macosx_12_0_x86_64" := by
  exact ⟨by decide, by decide⟩

/-! ## C4: manylinux expansion completeness -/

/-- C4 (corrected): the expansion of a recognized `manylinux_<M>_<m>_<arch>`
tag contains the canonical tag for every minor in `[0, m]`; the legacy
aliases `manylinux2014/2010/1` appear for exactly those minors among
`{17, 12, 5}` that are at most `m` **and only when `M = 2`** (for any other
major no alias is emitted), each immediately after the canonical tag at its
minor. -/
theorem manylinux_expansion_completeness (s : String) (lt : LinuxTag)
    (hleg : parseLegacy s = none) (hlin : parseLinux s = some lt)
    (hv : lt.variant = "many") :
    (∀ minor, minor ≤ lt.minor →
      renderLinux "many" lt.major minor lt.arch ∈ expand_platform_tag s) ∧
    (∀ k, (k = 17 ∨ k = 12 ∨ k = 5) →
      (aliasTag k lt.arch ∈ expand_platform_tag s ↔ lt.major = 2 ∧ k ≤ lt.minor)) ∧
    (∀ k, (k = 17 ∨ k = 12 ∨ k = 5) → lt.major = 2 → k ≤ lt.minor →
      [renderLinux "many" 2 k lt.arch, aliasTag k lt.arch] <:+:
        expand_platform_tag s) := by
  have hexp : expand_platform_tag s = linuxTags "many" lt.major lt.arch lt.minor := by
    unfold expand_platform_tag
    simp only [hleg, hlin]
    rw [hv]
  rw [hexp]
  refine ⟨?_, ?_, ?_⟩
  · intro minor h
    exact mem_linuxTags_of_le "many" lt.major lt.arch lt.minor minor h
  · intro k hk
    exact alias_mem_linuxTags lt.major lt.arch k hk lt.minor
  · intro k hk hmaj h
    rw [hmaj]
    exact canon_alias_infix lt.arch k hk lt.minor h

/-- Witness for C4 at the concrete tag `manylinux_2_24_x86_64` with
`k = 17`. -/
theorem manylinux_expansion_completeness_witness :
    "manylinux_2_18_x86_64" ∈ expand_platform_tag "manylinux_2_24_x86_64" ∧
    ("manylinux2014_x86_64" ∈ expand_platform_tag "manylinux_2_24_x86_64" ↔
      (2 : Nat) = 2 ∧ (17 : Nat) ≤ 24) ∧
    ["manylinux_2_17_x86_64", "manylinux2014_x86_64"] <:+:
      expand_platform_tag "manylinux_2_24_x86_64" := by
  have h := manylinux_expansion_completeness "manylinux_2_24_x86_64"
    ⟨"many", 2, 24, "x86_64"⟩ (by decide) (by decide) rfl
  refine ⟨?_, ?_, ?_⟩
  · have := h.1 18 (by decide)
    simpa using this
  · have := h.2.1 17 (Or.inl rfl)
    simpa using this
  · have := h.2.2 17 (Or.inl rfl) rfl (by decide)
    simpa using this

/-- Counterexample for C4 as stated: for `manylinux_3_17_x86_64` (major 3,
minor 17) the claim requires the alias `manylinux2014_x86_64` to be present
(17 ≤ 17), but the code only emits aliases for major 2. -/
theorem manylinux_expansion_completeness_counterexample :
    "manylinux2014_x86_64" ∉ expand_platform_tag "manylinux_3_17_x86_64" ∧
    "manylinux_3_17_x86_64" ∈ expand_platform_tag "manylinux_3_17_x86_64" := by
  exact ⟨by decide, by decide⟩

/-! ## Character lemmas for C5 -/

theorem splitOnChar_ne_nil (c : Char) : ∀ l : List Char, splitOnChar c l ≠ [] := by
  intro l
  cases l with
  | nil => simp [splitOnChar]
  | cons x xs =>
    unfold splitOnChar
    cases h : splitOnChar c xs with
    | nil => simp [splitOnCharAux]
    | cons p ps => by_cases hx : x = c <;> simp [splitOnCharAux, hx]

theorem mem_of_mem_splitOnChar (c : Char) :
    ∀ (l p : List Char), p ∈ splitOnChar c l → ∀ x ∈ p, x ∈ l := by
  intro l
  induction l with
  | nil =>
    intro p hp x hx
    simp [splitOnChar] at hp
    subst hp
    simp at hx
  | cons y ys ih =>
    intro p hp x hx
    unfold splitOnChar at hp
    cases h : splitOnChar c ys with
    | nil => exact absurd h (splitOnChar_ne_nil c ys)
    | cons q qs =>
      rw [h] at hp
      simp only [splitOnCharAux] at hp
      by_cases hy : y = c
      · rw [if_pos hy] at hp
        rcases List.mem_cons.mp hp with rfl | hp2
        · simp at hx
        · exact List.mem_cons_of_mem y (ih p (h ▸ hp2) x hx)
      · rw [if_neg hy] at hp
        rcases List.mem_cons.mp hp with rfl | hp2
        · rcases List.mem_cons.mp hx with rfl | hx2
          · exact List.mem_cons_self _ _
          · exact List.mem_cons_of_mem y
              (ih q (by rw [h]; exact List.mem_cons_self _ _) x hx2)
        · exact List.mem_cons_of_mem y
            (ih p (by rw [h]; exact List.mem_cons_of_mem q hp2) x hx)

theorem exists_part_of_mem (c : Char) :
    ∀ (l : List Char) (x : Char), x ∈ l → x ≠ c →
      ∃ p ∈ splitOnChar c l, x ∈ p := by
  intro l
  induction l with
  | nil => intro x hx _; simp at hx
  | cons y ys ih =>
    intro x hx hxc
    unfold splitOnChar
    cases h : splitOnChar c ys with
    | nil => exact absurd h (splitOnChar_ne_nil c ys)
    | cons q qs =>
      simp only [splitOnCharAux]
      by_cases hy : y = c
      · rw [if_pos hy]
        rcases List.mem_cons.mp hx with rfl | hx2
        · exact absurd hy hxc
        · obtain ⟨p, hp, hxp⟩ := ih x hx2 hxc
          rw [h] at hp
          exact ⟨p, List.mem_cons_of_mem [] hp, hxp⟩
      · rw [if_neg hy]
        rcases List.mem_cons.mp hx with rfl | hx2
        · exact ⟨x :: q, List.mem_cons_self _ _, List.mem_cons_self _ _⟩
        · obtain ⟨p, hp, hxp⟩ := ih x hx2 hxc
          rw [h] at hp
          rcases List.mem_cons.mp hp with rfl | hp2
          · exact ⟨y :: p, List.mem_cons_self _ _, List.mem_cons_of_mem y hxp⟩
          · exact ⟨p, List.mem_cons_of_mem _ hp2, hxp⟩

theorem parseLinux_no_dash (s : String) (lt : LinuxTag)
    (h : parseLinux s = some lt) : '-' ∉ s.data := by
  intro hdash
  obtain ⟨p, hp, hxp⟩ := exists_part_of_mem '_' s.data '-' hdash (by decide)
  unfold parseLinux at h
  rcases hsp : splitOnChar '_' s.data with _ | ⟨v, _ | ⟨ma, _ | ⟨mi, _ | ⟨r, rs⟩⟩⟩⟩ <;>
    rw [hsp] at h
  · simp at h
  · simp at h
  · simp at h
  · simp at h
  · dsimp only at h
    split at h
    case isFalse => simp at h
    case isTrue hcond =>
    obtain ⟨hv, hma, hmi, harch⟩ := hcond
    rw [hsp] at hp
    rcases List.mem_cons.mp hp with rfl | hp2
    · rcases hv with hv | hv <;> rw [hv] at hxp <;> exact absurd hxp (by decide)
    rcases List.mem_cons.mp hp2 with rfl | hp3
    · have := List.all_eq_true.mp (Bool.and_elim_right hma) '-' hxp
      exact absurd this (by decide)
    rcases List.mem_cons.mp hp3 with rfl | hp4
    · have := List.all_eq_true.mp (Bool.and_elim_right hmi) '-' hxp
      exact absurd this (by decide)
    · have := List.all_eq_true.mp harch p hp4
      have := List.all_eq_true.mp this '-' hxp
      exact absurd this (by decide)

theorem parseMacosx_no_dash (s : String) (mt : MacTag)
    (h : parseMacosx s = some mt) : '-' ∉ s.data := by
  intro hdash
  obtain ⟨p, hp, hxp⟩ := exists_part_of_mem '_' s.data '-' hdash (by decide)
  unfold parseMacosx at h
  rcases hsp : splitOnChar '_' s.data with _ | ⟨v, _ | ⟨ma, _ | ⟨mi, _ | ⟨r, rs⟩⟩⟩⟩ <;>
    rw [hsp] at h
  · simp at h
  · simp at h
  · simp at h
  · simp at h
  · dsimp only at h
    split at h
    case isFalse => simp at h
    case isTrue hcond =>
    obtain ⟨hv, hma, hmi, harch⟩ := hcond
    rw [hsp] at hp
    rcases List.mem_cons.mp hp with rfl | hp2
    · rw [hv] at hxp; exact absurd hxp (by decide)
    rcases List.mem_cons.mp hp2 with rfl | hp3
    · have := List.all_eq_true.mp (Bool.and_elim_right hma) '-' hxp
      exact absurd this (by decide)
    rcases List.mem_cons.mp hp3 with rfl | hp4
    · have := List.all_eq_true.mp (Bool.and_elim_right hmi) '-' hxp
      exact absurd this (by decide)
    · have := List.all_eq_true.mp harch p hp4
      have := List.all_eq_true.mp this '-' hxp
      exact absurd this (by decide)

theorem machineOfTag_none_of_dash (t : String) (hd : '-' ∈ t.data) :
    machineOfTag t = none := by
  unfold machineOfTag
  by_cases hwin : "win".data.isPrefixOf t.data
  · have hg : compat_groups t = .ok [t] := by
      unfold compat_groups; rw [if_pos hwin]
    rw [hg]
    show machineOfGroups [t] = none
    obtain ⟨rest, hrest⟩ := List.isPrefixOf_iff_prefix.mp hwin
    have h1 : t ≠ "macos-x86_64" := by
      intro h
      have hh : t.data.head? = some 'm' := by rw [h]; rfl
      rw [← hrest, show ("win".data ++ rest) = 'w' :: 'i' :: 'n' :: rest from rfl] at hh
      simp at hh
    have h2 : t ≠ "macos-arm64" := by
      intro h
      have hh : t.data.head? = some 'm' := by rw [h]; rfl
      rw [← hrest, show ("win".data ++ rest) = 'w' :: 'i' :: 'n' :: rest from rfl] at hh
      simp at hh
    simp [machineOfGroups, h1, h2]
  · cases hmac : parseMacosx t with
    | some mt => exact absurd hd (parseMacosx_no_dash t mt hmac)
    | none =>
      cases hlin : parseLinux t with
      | some lt => exact absurd hd (parseLinux_no_dash t lt hlin)
      | none =>
        cases hleg : parseLegacy t with
        | none =>
          have hg : compat_groups t = .error ("unsupported platform tag " ++ t) := by
            unfold compat_groups
            rw [if_neg hwin]
            simp only [hmac, hlin, hleg]
          rw [hg]
          rfl
        | some pa =>
          obtain ⟨mi, arch⟩ := pa
          have hg : compat_groups t = .ok ["manylinux-" ++ arch] := by
            unfold compat_groups
            rw [if_neg hwin]
            simp only [hmac, hlin, hleg]
          rw [hg]
          show machineOfGroups ["manylinux-" ++ arch] = none
          have h1 : "manylinux-" ++ arch ≠ "macos-x86_64" := by
            intro h
            have h3 := congrArg (fun s => s.data.get? 2) h
            simp only at h3
            rw [show ("manylinux-" ++ arch).data.get? 2 = some 'n' from by
              simp only [String.data_append]; rfl] at h3
            rw [show ("macos-x86_64" : String).data.get? 2 = some 'c' from rfl] at h3
            simp at h3
          have h2 : "manylinux-" ++ arch ≠ "macos-arm64" := by
            intro h
            have h3 := congrArg (fun s => s.data.get? 2) h
            simp only at h3
            rw [show ("manylinux-" ++ arch).data.get? 2 = some 'n' from by
              simp only [String.data_append]; rfl] at h3
            rw [show ("macos-arm64" : String).data.get? 2 = some 'c' from rfl] at h3
            simp at h3
          simp [machineOfGroups, h1, h2]

theorem infer_error_of_dash :
    ∀ tags : List String, (∀ t ∈ tags, '-' ∈ t.data) →
      infer_platform_machine tags =
        .error "cant infer platform_machine for this platform/pybi" := by
  intro tags
  induction tags with
  | nil => intro _; rfl
  | cons t ts ih =>
    intro h
    have hm := machineOfTag_none_of_dash t (h t (List.mem_cons_self _ _))
    unfold infer_platform_machine
    simp only [hm]
    exact ih fun x hx => h x (List.mem_cons_of_mem t hx)

theorem wheel_platform_ok_shape (selfTags archTags metadataTags : List String)
    (w : PlatformImpl)
    (h : wheel_platform_for_pybi selfTags archTags metadataTags = .ok w) :
    ∃ platformTags,
      w = pushAll (metadataTags.flatMap (templateTags platformTags)) := by
  unfold wheel_platform_for_pybi at h
  cases hu : unionGroups archTags [] with
  | error e =>
    simp only [hu] at h
    exact ROutcome.noConfusion h
  | ok G =>
    simp only [hu] at h
    by_cases hG : G.length = 0
    · rw [if_pos hG] at h; simp at h
    · rw [if_neg hG] at h
      cases hn : narrow selfTags G with
      | error e =>
        simp only [hn] at h
        exact ROutcome.noConfusion h
      | ok g =>
        simp only [hn] at h
        by_cases hg : g.length = 1
        · rw [dif_pos hg] at h
          cases hs : selectTags selfTags (g.head (by
              simp [← List.length_pos_iff_ne_nil, hg])) with
          | error e =>
            simp only [hs] at h
            exact ROutcome.noConfusion h
          | ok pts =>
            simp only [hs] at h
            refine ⟨pts, ?_⟩
            cases h
            rfl
        · rw [dif_neg hg] at h
          simp at h

theorem templateTags_dash (platformTags : List String) (tmpl : String)
    (hdt : '-' ∈ tmpl.data) :
    ∀ t ∈ templateTags platformTags tmpl, '-' ∈ t.data := by
  intro t ht
  unfold templateTags at ht
  cases hs : stripPlatformSuffix tmpl with
  | none =>
    rw [hs] at ht
    have : t = tmpl := by simpa using ht
    rw [this]
    exact hdt
  | some stem =>
    rw [hs] at ht
    obtain ⟨pt, hpt, rfl⟩ := List.mem_map.mp ht
    show '-' ∈ (stem ++ "-" ++ pt).data
    rw [String.data_append]
    apply List.mem_append_left
    rw [String.data_append]
    exact List.mem_append_right _ (by decide)

theorem built_wheel_tags_dash (selfTags archTags metadataTags : List String)
    (w : PlatformImpl)
    (hok : wheel_platform_for_pybi selfTags archTags metadataTags = .ok w)
    (hdash : ∀ tmpl ∈ metadataTags, '-' ∈ tmpl.data) :
    ∀ t ∈ w.tags, '-' ∈ t.data := by
  obtain ⟨pts, rfl⟩ := wheel_platform_ok_shape _ _ _ _ hok
  intro t ht
  rcases foldl_push_tags_subset _ PlatformImpl.empty t ht with h | h
  · simp [PlatformImpl.empty] at h
  · obtain ⟨tmpl, htmpl, hmem⟩ := List.mem_flatMap.mp h
    exact templateTags_dash pts tmpl (hdash tmpl htmpl) t hmem

theorem infer_eq_findSome (tags : List String) :
    infer_platform_machine tags =
      match tags.findSome? machineOfTag with
      | some m => .ok m
      | none => .error "cant infer platform_machine for this platform/pybi" := by
  induction tags with
  | nil => rfl
  | cons t ts ih =>
    cases hm : machineOfTag t with
    | some m =>
      unfold infer_platform_machine
      rw [List.findSome?_cons]
      simp only [hm]
    | none =>
      unfold infer_platform_machine
      rw [List.findSome?_cons]
      simp only [hm]
      exact ih

/-! ## C5: infer_platform_machine -/

/-- C5 (corrected): `infer_platform_machine` scans the tags in insertion
order and answers with the machine of the first tag that yields a macOS
compat group (`macos-x86_64 ↦ "x86_64"`, `macos-arm64 ↦ "arm64"`, the tag's
group list scanned in order), failing when no tag yields one; however, on a
WheelPlatform built by `wheel_platform_for_pybi` the tags are full wheel
tags (every template contains a dash), which are never recognized by
`compat_groups` (its regexes are anchored at the start), so on such a
platform `infer_platform_machine` always fails instead of succeeding. -/
theorem infer_platform_machine_spec :
    (∀ tags : List String,
      infer_platform_machine tags =
        match tags.findSome? machineOfTag with
        | some m => .ok m
        | none => .error "cant infer platform_machine for this platform/pybi") ∧
    (∀ selfTags archTags metadataTags w,
      wheel_platform_for_pybi selfTags archTags metadataTags = .ok w →
      (∀ tmpl ∈ metadataTags, '-' ∈ tmpl.data) →
      infer_platform_machine w.tags =
        .error "cant infer platform_machine for this platform/pybi") :=
  ⟨infer_eq_findSome, fun s a m w hok hd =>
    infer_error_of_dash w.tags (built_wheel_tags_dash s a m w hok hd)⟩

/-- Witness for C5: the macOS arm64 PYBI scenario; the built wheel platform
exists and inference on it fails. -/
theorem infer_platform_machine_spec_witness :
    infer_platform_machine
        ((wheel_platform_for_pybi (from_core_tags ["macosx_10_0_arm64"]).tags
          ["macosx_10_0_arm64"] ["c-c-PLATFORM"]).toOption.getD
            PlatformImpl.empty).tags =
      .error "cant infer platform_machine for this platform/pybi" :=
  infer_platform_machine_spec.2 (from_core_tags ["macosx_10_0_arm64"]).tags
    ["macosx_10_0_arm64"] ["c-c-PLATFORM"]
    ((wheel_platform_for_pybi (from_core_tags ["macosx_10_0_arm64"]).tags
      ["macosx_10_0_arm64"] ["c-c-PLATFORM"]).toOption.getD PlatformImpl.empty)
    (by decide) (by decide)

/-- Counterexample for C5 as stated: for a macOS PYBI the built
WheelPlatform's tags are full wheel tags, and `infer_platform_machine` fails
on them instead of succeeding. -/
theorem infer_platform_machine_counterexample :
    (wheel_platform_for_pybi (from_core_tags ["macosx_10_0_arm64"]).tags
        ["macosx_10_0_arm64"] ["c-c-PLATFORM"]).toOption.map PlatformImpl.tags =
      some ["c-c-macosx_10_0_arm64", "c-c-macosx_10_0_universal2"] ∧
    infer_platform_machine ["c-c-macosx_10_0_arm64", "c-c-macosx_10_0_universal2"] =
      .error "cant infer platform_machine for this platform/pybi" :=
  ⟨by decide, by rfl⟩

/-! ## C1: hint preservation in fetch_and_sort_versions -/

theorem sortLe_iff (hint : Option Version) (a b : Version) :
    sortLe hint a b = true ↔
      ((hint = some a ∧ hint ≠ some b) ∨
       ((hint = some a ↔ hint = some b) ∧ b.ord ≤ a.ord)) := by
  unfold sortLe
  by_cases ha : hint = some a <;> by_cases hb : hint = some b <;> simp [ha, hb]

theorem sortLe_refl (hint : Option Version) (a : Version) : sortLe hint a a = true := by
  rw [sortLe_iff]
  exact Or.inr ⟨Iff.rfl, Nat.le_refl _⟩

theorem sortLe_total (hint : Option Version) (a b : Version) :
    sortLe hint a b = true ∨ sortLe hint b a = true := by
  rw [sortLe_iff, sortLe_iff]
  by_cases ha : hint = some a <;> by_cases hb : hint = some b <;>
    rcases Nat.le_total b.ord a.ord with h | h <;> tauto

theorem sortLe_trans (hint : Option Version) (a b c : Version)
    (h1 : sortLe hint a b = true) (h2 : sortLe hint b c = true) :
    sortLe hint a c = true := by
  rw [sortLe_iff] at h1 h2 ⊢
  by_cases ha : hint = some a <;> by_cases hb : hint = some b <;>
    by_cases hc : hint = some c
  all_goals rcases h1 with ⟨h11, h12⟩ | ⟨h11, h12⟩ <;>
    rcases h2 with ⟨h21, h22⟩ | ⟨h21, h22⟩ <;> try tauto
  all_goals
    refine Or.inr ⟨by tauto, by omega⟩

theorem filterMap_fst_sublist (f : Version × List ArtifactInfo → Option Version)
    (hf : ∀ x, f x = none ∨ f x = some x.1) :
    ∀ l : List (Version × List ArtifactInfo),
      (l.filterMap f).Sublist (l.map Prod.fst) := by
  intro l
  induction l with
  | nil => simp
  | cons x xs ih =>
    rw [List.filterMap_cons, List.map_cons]
    rcases hf x with h | h
    · rw [h]; exact ih.cons _
    · rw [h]; exact ih.cons₂ _

/-- C1 (corrected): if the hints pin `vh` with hash set `hs`, some published
artifact of `vh` survives the yank filter (possibly rescued by a pinned
hash) and the python filter, **and `vh` is not a pre-release barred by the
`allow_pre` policy**, then `vh` is the first element of
`fetch_and_sort_versions` and the remaining versions descend. -/
theorem hint_preservation (allowPre : Bool)
    (available : List (Version × List ArtifactInfo))
    (pythonVersion : Option Version) (vh : Version) (hs : List String)
    (ais : List ArtifactInfo)
    (hnd : (available.map Prod.fst).Nodup)
    (hmem : (vh, ais) ∈ available)
    (hok : ais.any (artifactOk (some hs) pythonVersion) = true)
    (hpre : allowPre = true ∨ vh.pre = false) :
    (fetch_and_sort_versions allowPre available pythonVersion
        (some (vh, hs))).head? = some vh ∧
    (fetch_and_sort_versions allowPre available pythonVersion
        (some (vh, hs))).tail.Pairwise (fun a b => b.ord ≤ a.ord) := by
  have hred : fetch_and_sort_versions allowPre available pythonVersion (some (vh, hs)) =
      (available.filterMap fun va =>
        if !allowPre && va.1.pre then none
        else if va.2.any (artifactOk (some hs) pythonVersion) then some va.1
        else none).insertionSort (fun a b => sortLe (some vh) a b = true) := rfl
  set f : Version × List ArtifactInfo → Option Version := fun va =>
    if !allowPre && va.1.pre then none
    else if va.2.any (artifactOk (some hs) pythonVersion) then some va.1
    else none with hf
  set filtered := available.filterMap f with hfil
  have hfprop : ∀ x, f x = none ∨ f x = some x.1 := by
    intro x
    rw [hf]
    dsimp only
    split_ifs <;> simp
  have hvh : vh ∈ filtered := by
    rw [hfil]
    apply List.mem_filterMap.mpr
    refine ⟨(vh, ais), hmem, ?_⟩
    rw [hf]
    dsimp only
    have h1 : (!allowPre && vh.pre) = false := by
      rcases hpre with h | h <;> simp [h]
    rw [if_neg (by simp [h1]), if_pos hok]
  have hnodup_f : filtered.Nodup :=
    (filterMap_fst_sublist f hfprop available).nodup hnd
  haveI : IsTotal Version (fun a b => sortLe (some vh) a b = true) :=
    ⟨sortLe_total (some vh)⟩
  haveI : IsTrans Version (fun a b => sortLe (some vh) a b = true) :=
    ⟨fun a b c => sortLe_trans (some vh) a b c⟩
  have hsorted := List.sorted_insertionSort
    (fun a b => sortLe (some vh) a b = true) filtered
  have hperm := List.perm_insertionSort
    (fun a b => sortLe (some vh) a b = true) filtered
  rw [hred]
  cases hsor : filtered.insertionSort (fun a b => sortLe (some vh) a b = true) with
  | nil =>
    rw [hsor] at hperm
    exact absurd (hperm.symm.mem_iff.mp hvh) (List.not_mem_nil vh)
  | cons x rest =>
    rw [hsor] at hsorted hperm
    have hxr : ∀ y ∈ rest, sortLe (some vh) x y = true :=
      (List.sorted_cons.mp hsorted).1
    have hvh_s : vh ∈ x :: rest := hperm.symm.subset hvh
    have hx_vh : sortLe (some vh) x vh = true := by
      rcases List.mem_cons.mp hvh_s with h | h
      · rw [← h]; exact sortLe_refl (some vh) vh
      · exact hxr vh h
    have hx : x = vh := by
      rcases (sortLe_iff (some vh) x vh).mp hx_vh with ⟨h1, _⟩ | ⟨h1, _⟩
      · exact (Option.some.inj h1).symm
      · exact (Option.some.inj (h1.mpr rfl)).symm
    subst hx
    have hnodup_s : (x :: rest).Nodup := hperm.nodup_iff.mpr hnodup_f
    refine ⟨rfl, ?_⟩
    have hrest : rest.Pairwise (fun a b => sortLe (some x) a b = true) :=
      (List.sorted_cons.mp hsorted).2
    have hx_not : x ∉ rest := (List.nodup_cons.mp hnodup_s).1
    show rest.Pairwise (fun a b => b.ord ≤ a.ord)
    refine hrest.imp_of_mem ?_
    intro a b ha hb hr
    have hna : some x ≠ some a := fun h => hx_not (Option.some.inj h ▸ ha)
    rcases (sortLe_iff (some x) a b).mp hr with ⟨h1, _⟩ | ⟨_, h2⟩
    · exact absurd h1 hna
    · exact h2

/-- Witness for C1: a hinted non-prerelease version floats to the top. -/
theorem hint_preservation_witness :
    (fetch_and_sort_versions true
        [(⟨10, false⟩, [⟨some "h", none, false⟩]),
         (⟨20, false⟩, [⟨some "h", none, false⟩])]
        none (some (⟨10, false⟩, ["h"]))).head? = some ⟨10, false⟩ :=
  (hint_preservation true
    [(⟨10, false⟩, [⟨some "h", none, false⟩]),
     (⟨20, false⟩, [⟨some "h", none, false⟩])]
    none ⟨10, false⟩ ["h"] [⟨some "h", none, false⟩]
    (by decide) (by decide) (by decide) (Or.inl rfl)).1

/-- Counterexample for C1 as stated: a pinned *pre-release* version whose
yanked artifact's hash is among the published hashes, with `allow_pre` not
permitting the package, is dropped entirely (the pre-release filter has no
hint exception), so it is not the first candidate. -/
theorem hint_preservation_counterexample :
    fetch_and_sort_versions false [(⟨1, true⟩, [⟨some "h", none, true⟩])] none
      (some (⟨1, true⟩, ["h"])) = [] := by decide

end Posy
